import Mathlib

/-
Shallow embedding of DeedleFake/xcontainer: the circular doubly-linked
list `List[T]` (src/list.go) and the insertion-ordered map `OrderedMap`
(the second source file).  Go pointers are modelled as optional heap
addresses (`none` is Go's `nil`); the Go heap of list nodes is an
explicit `Heap` value threaded through every operation.  Operations
that would dereference a dangling address (never produced by the API,
but expressible in the model) return `none`.
-/

namespace XContainer

/-- A pointer to a list node: `none` is Go's `nil`. -/
abbrev Ptr := Option Nat

/-- A `List[T]` node (Go type `List[T]` in src/list.go): `prev`/`next`
pointer fields and the exported value field `Val` (here `val`). -/
structure Node (T : Type) where
  prev : Ptr
  next : Ptr
  val : T
deriving DecidableEq

/-- The heap of list nodes: contents by address, plus the next fresh
address used for allocation. -/
structure Heap (T : Type) where
  mem : Nat → Option (Node T)
  fresh : Nat

/-- The empty heap. -/
def Heap.empty {T : Type} : Heap T := ⟨fun _ => none, 0⟩

/-- Read the node at address `a` (`none` if unallocated). -/
def Heap.get {T : Type} (h : Heap T) (a : Nat) : Option (Node T) := h.mem a

/-- Overwrite the node at address `a`. -/
def Heap.set {T : Type} (h : Heap T) (a : Nat) (n : Node T) : Heap T :=
  ⟨fun b => if b = a then some n else h.mem b, h.fresh⟩

/-- Allocate a new node at the fresh address (Go's `&List[T]{...}`). -/
def Heap.alloc {T : Type} (h : Heap T) (n : Node T) : Heap T :=
  ⟨fun b => if b = h.fresh then some n else h.mem b, h.fresh + 1⟩

/-- Go `(*List[T]).Next`: `nil` receiver yields `nil`, otherwise the
`next` field.  On a dangling address (never produced by the API) we
return `none`. -/
def nextPtr {T : Type} (h : Heap T) (p : Ptr) : Ptr :=
  match p with
  | none => none
  | some a =>
    match h.get a with
    | none => none
    | some n => n.next

/-- Go `(*List[T]).Prev`: `nil` receiver yields `nil`, otherwise the
`prev` field.  On a dangling address we return `none`. -/
def prevPtr {T : Type} (h : Heap T) (p : Ptr) : Ptr :=
  match p with
  | none => none
  | some a =>
    match h.get a with
    | none => none
    | some n => n.prev

/-- Go `(*List[T]).InsertBefore`:
`node := &List[T]{next: list, Val: v}`; if `list != nil` then
`node.prev, list.prev = list.prev, node; return list`, else the node is
made self-linked and returned.  The tuple assignment evaluates the
right-hand sides first and assigns left to right, so only `node.prev`
and `list.prev` are written. -/
def insertBefore {T : Type} (h : Heap T) (list : Ptr) (v : T) : Option (Heap T × Ptr) :=
  let a := h.fresh
  let h1 := h.alloc ⟨none, list, v⟩
  match list with
  | some r =>
    match h1.get r with
    | none => none
    | some rn =>
      let h2 := h1.set a ⟨rn.prev, list, v⟩
      let h3 := h2.set r ⟨some a, rn.next, rn.val⟩
      some (h3, some r)
  | none =>
    some (h1.set a ⟨some a, some a, v⟩, some a)

/-- Go `(*List[T]).InsertAfter`:
`node := &List[T]{prev: list, Val: v}`; if `list != nil` then
`node.next, list.next = list.next, node; return list`, else the node is
made self-linked and returned. -/
def insertAfter {T : Type} (h : Heap T) (list : Ptr) (v : T) : Option (Heap T × Ptr) :=
  let a := h.fresh
  let h1 := h.alloc ⟨list, none, v⟩
  match list with
  | some r =>
    match h1.get r with
    | none => none
    | some rn =>
      let h2 := h1.set a ⟨list, rn.next, v⟩
      let h3 := h2.set r ⟨rn.prev, some a, rn.val⟩
      some (h3, some r)
  | none =>
    some (h1.set a ⟨some a, some a, v⟩, some a)

/-- Go `(*List[T]).Remove`: on `nil` returns `nil`; otherwise
`list.prev.next, list.next.prev = list.next, list.prev` and the old
`list.prev` is returned.  Right-hand sides are read before either
assignment; the second write reads the heap produced by the first. -/
def remove {T : Type} (h : Heap T) (list : Ptr) : Option (Heap T × Ptr) :=
  match list with
  | none => some (h, none)
  | some r =>
    match h.get r with
    | none => none
    | some rn =>
      match rn.prev, rn.next with
      | some p, some n =>
        match h.get p with
        | none => none
        | some pn =>
          let h1 := h.set p ⟨pn.prev, rn.next, pn.val⟩
          match h1.get n with
          | none => none
          | some nn =>
            let h2 := h1.set n ⟨rn.prev, nn.next, nn.val⟩
            some (h2, rn.prev)
      | _, _ => none

/-- Go `(*List[T]).InsertSeqBefore`: repeated `InsertBefore`,
replacing the anchor with each result. -/
def insertSeqBefore {T : Type} (h : Heap T) (list : Ptr) (vs : List T) : Option (Heap T × Ptr) :=
  match vs with
  | [] => some (h, list)
  | v :: rest =>
    match insertBefore h list v with
    | none => none
    | some (h1, l1) => insertSeqBefore h1 l1 rest

/-- Loop body of Go `(*List[T]).InsertSeqAfter`: keeps a `tail`
cursor, inserts after it, advances the cursor with `Next`, and latches
the first node as the returned anchor when starting from `nil`. -/
def insertSeqAfterGo {T : Type} (h : Heap T) (list tail : Ptr) (vs : List T) : Option (Heap T × Ptr) :=
  match vs with
  | [] => some (h, list)
  | v :: rest =>
    match insertAfter h tail v with
    | none => none
    | some (h1, t1) =>
      let t2 := nextPtr h1 t1
      insertSeqAfterGo h1 (if list = none then t2 else list) t2 rest

/-- Go `(*List[T]).InsertSeqAfter`. -/
def insertSeqAfter {T : Type} (h : Heap T) (list : Ptr) (vs : List T) : Option (Heap T × Ptr) :=
  insertSeqAfterGo h list list vs

/-- Go `NewList` / `NewListFromSeq`: `InsertSeqBefore` on the empty
list, starting from the empty heap. -/
def newList {T : Type} (vs : List T) : Option (Heap T × Ptr) :=
  insertSeqBefore Heap.empty none vs

/-- The node sequence produced by Go `(*List[T]).seq` with a consumer
that never stops: yield `cur`, step with `adv`, stop on returning to
`root`.  `fuel` bounds the number of yields; any `fuel` at least the
cycle length is enough. -/
def seqNodes {T : Type} (h : Heap T) (adv : Heap T → Ptr → Ptr) (root : Ptr)
    (fuel : Nat) (cur : Ptr) : List Ptr :=
  match fuel with
  | 0 => []
  | fuel' + 1 =>
    cur :: (if adv h cur = root then [] else seqNodes h adv root fuel' (adv h cur))

/-- Go `(*List[T]).All` (node form): forward traversal; empty on `nil`. -/
def allNodes {T : Type} (h : Heap T) (list : Ptr) (fuel : Nat) : List Ptr :=
  match list with
  | none => []
  | some _ => seqNodes h nextPtr list fuel list

/-- Go `(*List[T]).Backward` (node form): `prev`-order traversal. -/
def backwardNodes {T : Type} (h : Heap T) (list : Ptr) (fuel : Nat) : List Ptr :=
  match list with
  | none => []
  | some _ => seqNodes h prevPtr list fuel list

/-- Go `(*List[T]).seq` run against a consumer that accepts at most
`budget` elements and then returns `false` from `yield`.  First
component: the nodes yielded; second component: the nodes the producer
advanced from (the only nodes whose fields it reads). -/
def seqNodesStop {T : Type} (h : Heap T) (adv : Heap T → Ptr → Ptr) (root : Ptr)
    (fuel : Nat) (budget : Nat) (cur : Ptr) : List Ptr × List Ptr :=
  match fuel with
  | 0 => ([], [])
  | fuel' + 1 =>
    match budget with
    | 0 => ([], [])
    | b + 1 =>
      if adv h cur = root then ([cur], [cur])
      else
        let rec' := seqNodesStop h adv root fuel' b (adv h cur)
        (cur :: rec'.1, cur :: rec'.2)

/-- Go `(*List[T]).All` against a consumer stopping after `budget`
elements. -/
def allNodesStop {T : Type} (h : Heap T) (list : Ptr) (fuel budget : Nat) : List Ptr × List Ptr :=
  match list with
  | none => ([], [])
  | some _ => seqNodesStop h nextPtr list fuel budget list

/-- Go `(*List[T]).Values`: the `Val` field of each node yielded by
`All`.  (Every yielded node is allocated in API-produced states.) -/
def valuesF {T : Type} (h : Heap T) (list : Ptr) (fuel : Nat) : List T :=
  (allNodes h list fuel).filterMap fun p => (p.bind h.get).map (·.val)

/-- Go `(*List[T]).ValuesBackward`: values along `Backward`. -/
def valuesBackwardF {T : Type} (h : Heap T) (list : Ptr) (fuel : Nat) : List T :=
  (backwardNodes h list fuel).filterMap fun p => (p.bind h.get).map (·.val)

/-- The C1 doubly-linked-list invariant at one node:
`prev(next(p)) == p` and `next(prev(p)) == p`. -/
def okNode {T : Type} (h : Heap T) (p : Ptr) : Bool :=
  (prevPtr h (nextPtr h p) == p) && (nextPtr h (prevPtr h p) == p)

/-- Go struct `entry[K, V]` of the OrderedMap source file. -/
structure entry (K V : Type) where
  key : K
  val : V
deriving DecidableEq

/-- Go `OrderedMap[K, V]`: the Go map `m` becomes the association list
`index` from keys to node addresses, `head` is the head pointer, and
`heap` holds the list nodes the Go version reaches through pointers. -/
structure OrderedMap (K V : Type) where
  index : List (K × Nat)
  head : Ptr
  heap : Heap (entry K V)

/-- The zero-value `OrderedMap` (empty and ready to use). -/
def OrderedMap.empty {K V : Type} : OrderedMap K V := ⟨[], none, Heap.empty⟩

/-- Go map read `m.m[key]`. -/
def idxGet {K : Type} [DecidableEq K] (idx : List (K × Nat)) (k : K) : Option Nat :=
  match idx with
  | [] => none
  | p :: rest => if p.1 = k then some p.2 else idxGet rest k

/-- Go map write `m.m[key] = a`. -/
def idxSet {K : Type} [DecidableEq K] (idx : List (K × Nat)) (k : K) (a : Nat) : List (K × Nat) :=
  match idx with
  | [] => [(k, a)]
  | p :: rest => if p.1 = k then (k, a) :: rest else p :: idxSet rest k a

/-- Go map delete `delete(m.m, key)`. -/
def idxDel {K : Type} [DecidableEq K] (idx : List (K × Nat)) (k : K) : List (K × Nat) :=
  match idx with
  | [] => []
  | p :: rest => if p.1 = k then idxDel rest k else p :: idxDel rest k

/-- Go `(*OrderedMap).Set`: on a present key, `node.Val.val = val`
updates the value inside the existing node; on an absent key,
`m.head = m.head.InsertBefore(enter(key, val)); m.m[key] = m.head.Prev()`.
The impossible cases (dangling index entry, `Prev` of the new head
coming back `nil`) are modelled as failure. -/
def OrderedMap.Set {K V : Type} [DecidableEq K] (m : OrderedMap K V) (key : K) (v : V) :
    Option (OrderedMap K V) :=
  match idxGet m.index key with
  | some a =>
    match m.heap.get a with
    | none => none
    | some n => some { m with heap := m.heap.set a ⟨n.prev, n.next, ⟨n.val.key, v⟩⟩ }
  | none =>
    match insertBefore m.heap m.head ⟨key, v⟩ with
    | none => none
    | some (h1, nh) =>
      match prevPtr h1 nh with
      | some pa => some ⟨idxSet m.index key pa, nh, h1⟩
      | none => none

/-- Go `(*OrderedMap).Lookup`: consult the index; `some v` plays the
role of `(v, true)` and `none` of `(zeroValue, false)`. -/
def OrderedMap.Lookup {K V : Type} [DecidableEq K] (m : OrderedMap K V) (key : K) : Option V :=
  match idxGet m.index key with
  | none => none
  | some a => (m.heap.get a).map fun n => n.val.val

/-- Go `(*OrderedMap).Delete`: no-op on an absent key; otherwise
`prev := node.Remove()`, and if the removed node was the head the head
becomes `prev.Next()`; finally the key is deleted from the index. -/
def OrderedMap.Delete {K V : Type} [DecidableEq K] (m : OrderedMap K V) (key : K) :
    Option (OrderedMap K V) :=
  match idxGet m.index key with
  | none => some m
  | some a =>
    match remove m.heap (some a) with
    | none => none
    | some (h1, prevP) =>
      some ⟨idxDel m.index key,
            if some a = m.head then nextPtr h1 prevP else m.head,
            h1⟩

/-- Go `(*OrderedMap).Clear`: `clear(m.m)` and `m.head = nil` (the
nodes themselves become garbage but stay in our heap). -/
def OrderedMap.Clear {K V : Type} (m : OrderedMap K V) : OrderedMap K V :=
  ⟨[], none, m.heap⟩

/-- Go `(*OrderedMap).Keys` (fuel-bounded): the keys of the entries
yielded by iterating the list from `head`. -/
def OrderedMap.Keys {K V : Type} (m : OrderedMap K V) (fuel : Nat) : List K :=
  (valuesF m.heap m.head fuel).map (·.key)

/-- Go `(*OrderedMap).Values` (fuel-bounded). -/
def OrderedMap.Vals {K V : Type} (m : OrderedMap K V) (fuel : Nat) : List V :=
  (valuesF m.heap m.head fuel).map (·.val)

/-! ### Concrete states reachable through the public API -/

/-- The map state after `m.Set("a", 1); m.Set("b", 2)` from the zero
value. -/
def mapAB : Option (OrderedMap String Nat) :=
  (OrderedMap.empty.Set "a" 1).bind fun m => m.Set "b" 2

/-- The map state after `m.Set("a", 1); m.Set("b", 2); m.Set("a", 3)`. -/
def mapABA : Option (OrderedMap String Nat) :=
  mapAB.bind fun m => m.Set "a" 3

/-- The map state after `m.Set("a", 1); m.Delete("a")`. -/
def mapADel : Option (OrderedMap String Nat) :=
  (OrderedMap.empty.Set "a" 1).bind fun m => m.Delete "a"

/-! ### Well-formedness predicates -/

/-- One traversal step: `adv` sent `x`'s address to `y`'s. -/
abbrev stepRel {T : Type} (h : Heap T) (adv : Heap T → Ptr → Ptr) (x y : Nat) : Prop :=
  adv h (some x) = some y

/-- Adjacent elements of the list step to each other under `adv`. -/
def chainStep {T : Type} (h : Heap T) (adv : Heap T → Ptr → Ptr) : List Nat → Bool
  | [] => true
  | [_] => true
  | x :: y :: rest => (adv h (some x) == some y) && chainStep h adv (y :: rest)

/-- Predicate: `ring` lists a cycle of `adv`: consecutive elements step to each
other and the last element steps back to the head. -/
abbrev ringStep {T : Type} (h : Heap T) (adv : Heap T → Ptr → Ptr) (ring : List Nat) : Prop :=
  chainStep h adv ring = true ∧ stepRel h adv (ring.getLastD 0) (ring.headD 0)

/-- A well-formed circular doubly-linked list, listed starting from a
chosen node: distinct addresses, `next` steps along the cycle, and
`prev` steps along the reversed cycle (`prev` is the inverse of
`next`). -/
abbrev isRing {T : Type} (h : Heap T) (ring : List Nat) : Prop :=
  ring ≠ [] ∧ ring.Nodup ∧ ringStep h nextPtr ring ∧
  ringStep h prevPtr (ring.headD 0 :: ring.tail.reverse)

/-- Address `a` holds a node whose `prev` and `next` are non-nil and
allocated (true of every node the API ever links into a list). -/
def nodeOk {T : Type} (h : Heap T) (a : Nat) : Prop :=
  ∃ nd, h.get a = some nd ∧
    (∃ p pn, nd.prev = some p ∧ h.get p = some pn) ∧
    (∃ q qn, nd.next = some q ∧ h.get q = some qn)

/-- Basic heap sanity: nothing lives at or above the fresh address. -/
def Heap.wf {T : Type} (h : Heap T) : Prop :=
  ∀ b, h.fresh ≤ b → h.get b = none

/-- Map-state sanity, true of every API-reachable state: the heap is
sane, indexed addresses hold fully linked nodes, and the head (when
present) is allocated. -/
def OrderedMap.wf {K V : Type} [DecidableEq K] (m : OrderedMap K V) : Prop :=
  m.heap.wf ∧
  (∀ k a, idxGet m.index k = some a → nodeOk m.heap a) ∧
  (m.head = none ∨ ∃ hd hn, m.head = some hd ∧ m.heap.get hd = some hn)

/-- A concrete well-formed three-node circular list (addresses
`0 → 1 → 2 → 0` under `next`, inverted under `prev`). -/
def ringHeap : Heap String :=
  ⟨fun b =>
    if b = 0 then some ⟨some 2, some 1, "x"⟩
    else if b = 1 then some ⟨some 0, some 2, "y"⟩
    else if b = 2 then some ⟨some 1, some 0, "z"⟩
    else none, 3⟩

/-- A concrete well-formed two-node circular list (`0 ⇄ 1`). -/
def pairHeap : Heap String :=
  ⟨fun b =>
    if b = 0 then some ⟨some 1, some 1, "x"⟩
    else if b = 1 then some ⟨some 0, some 0, "y"⟩
    else none, 2⟩

/-! ### Theorems for the claims -/

theorem Heap.get_set {T : Type} (h : Heap T) (a b : Nat) (n : Node T) :
    (h.set a n).get b = if b = a then some n else h.get b := rfl

theorem Heap.get_alloc {T : Type} (h : Heap T) (n : Node T) (b : Nat) :
    (h.alloc n).get b = if b = h.fresh then some n else h.get b := rfl

theorem Heap.fresh_set {T : Type} (h : Heap T) (a : Nat) (n : Node T) :
    (h.set a n).fresh = h.fresh := rfl

theorem Heap.fresh_alloc {T : Type} (h : Heap T) (n : Node T) :
    (h.alloc n).fresh = h.fresh + 1 := rfl

theorem Heap.mem_set {T : Type} (h : Heap T) (a b : Nat) (n : Node T) :
    (h.set a n).mem b = if b = a then some n else h.mem b := rfl

theorem Heap.mem_alloc {T : Type} (h : Heap T) (n : Node T) (b : Nat) :
    (h.alloc n).mem b = if b = h.fresh then some n else h.mem b := rfl

theorem Node.eta {T : Type} (nd : Node T) :
    (⟨nd.prev, nd.next, nd.val⟩ : Node T) = nd := rfl

theorem idxGet_idxSet_self {K : Type} [DecidableEq K] (idx : List (K × Nat)) (k : K) (a : Nat) :
    idxGet (idxSet idx k a) k = some a := by
  induction idx with
  | nil => simp [idxGet, idxSet]
  | cons p rest ih =>
    by_cases hpk : p.1 = k
    · simp [idxGet, idxSet, hpk]
    · simp [idxGet, idxSet, hpk, ih]

theorem idxGet_idxDel_self {K : Type} [DecidableEq K] (idx : List (K × Nat)) (k : K) :
    idxGet (idxDel idx k) k = none := by
  induction idx with
  | nil => simp [idxGet, idxDel]
  | cons p rest ih =>
    by_cases hpk : p.1 = k
    · simp [idxDel, hpk, ih]
    · simp [idxGet, idxDel, hpk, ih]

/-- The traversal lemma: if `cur :: l` is a chain of `adv`-steps whose
last element steps to `c₀`, no element of `l` is `c₀`, and the fuel
covers the chain, then `seqNodes` rooted at `c₀` and started at `cur`
yields exactly `cur :: l`. -/
theorem seqNodes_chain {T : Type} (h : Heap T) (adv : Heap T → Ptr → Ptr) (c₀ : Nat) :
    ∀ (l : List Nat) (cur : Nat) (fuel : Nat),
      chainStep h adv (cur :: l) = true →
      stepRel h adv ((cur :: l).getLastD 0) c₀ →
      (∀ x ∈ l, x ≠ c₀) →
      l.length + 1 ≤ fuel →
      seqNodes h adv (some c₀) fuel (some cur) = (cur :: l).map some := by
  intro l
  induction l with
  | nil =>
    intro cur fuel _ hlast _ hfuel
    match fuel, hfuel with
    | fuel' + 1, _ =>
      have hc : adv h (some cur) = some c₀ := hlast
      simp [seqNodes, hc]
  | cons d l' ih =>
    intro cur fuel hchain hlast hne hfuel
    simp only [chainStep, Bool.and_eq_true, beq_iff_eq] at hchain
    obtain ⟨hd, hchain'⟩ := hchain
    have hdne : (some d : Ptr) ≠ some c₀ := by
      simpa using hne d (by simp)
    match fuel, hfuel with
    | fuel' + 1, hf =>
      have hlast' : stepRel h adv ((d :: l').getLastD 0) c₀ := by
        have heq : ((cur :: d :: l').getLastD 0) = ((d :: l').getLastD 0) := rfl
        rw [heq] at hlast
        exact hlast
      have hrec := ih d fuel' hchain' hlast'
        (fun x hx => hne x (List.mem_cons_of_mem d hx))
        (by simp only [List.length_cons] at hf; omega)
      simp only [seqNodes, hd, List.map_cons]
      rw [if_neg hdne, hrec]
      rfl

/-- The traversal lemma specialised to a full cycle started at its head. -/
theorem seqNodes_ring {T : Type} (h : Heap T) (adv : Heap T → Ptr → Ptr)
    (c : Nat) (rest : List Nat) (fuel : Nat)
    (hstep : ringStep h adv (c :: rest)) (hnodup : (c :: rest).Nodup)
    (hfuel : rest.length + 1 ≤ fuel) :
    seqNodes h adv (some c) fuel (some c) = (c :: rest).map some := by
  have hmem := (List.nodup_cons.mp hnodup).1
  exact seqNodes_chain h adv c rest c fuel hstep.1 hstep.2
    (fun x hx hxc => hmem (hxc ▸ hx)) hfuel

/-- Budget-limited runs yield a prefix of the full traversal. -/
theorem seqNodesStop_fst {T : Type} (h : Heap T) (adv : Heap T → Ptr → Ptr) (root : Ptr) :
    ∀ (fuel b : Nat) (cur : Ptr),
      (seqNodesStop h adv root fuel b cur).1 = (seqNodes h adv root fuel cur).take b := by
  intro fuel
  induction fuel with
  | zero => intro b cur; simp [seqNodesStop, seqNodes]
  | succ f ih =>
    intro b cur
    match b with
    | 0 => simp [seqNodesStop, seqNodes]
    | b' + 1 =>
      simp only [seqNodesStop, seqNodes]
      by_cases hroot : adv h cur = root
      · simp [hroot]
      · simp [hroot, ih]

/-- The budget-limited run only advances from nodes it yielded. -/
theorem seqNodesStop_snd {T : Type} (h : Heap T) (adv : Heap T → Ptr → Ptr) (root : Ptr) :
    ∀ (fuel b : Nat) (cur : Ptr),
      (seqNodesStop h adv root fuel b cur).2 = (seqNodesStop h adv root fuel b cur).1 := by
  intro fuel
  induction fuel with
  | zero => intro b cur; simp [seqNodesStop]
  | succ f ih =>
    intro b cur
    match b with
    | 0 => simp [seqNodesStop]
    | b' + 1 =>
      simp only [seqNodesStop]
      by_cases hroot : adv h cur = root
      · simp [hroot]
      · simp [hroot, ih]

/-- Evaluation of `remove` on a node whose two neighbors coincide
(`list.prev == list.next`): both writes land on that one node. -/
theorem remove_eq_of_eq {T : Type} (h : Heap T) (r p : Nat) (rn pn : Node T)
    (hr : h.get r = some rn) (hp : rn.prev = some p) (hn : rn.next = some p)
    (hpn : h.get p = some pn) :
    remove h (some r) =
      some ((h.set p ⟨pn.prev, rn.next, pn.val⟩).set p ⟨rn.prev, rn.next, pn.val⟩, some p) := by
  simp only [remove, hr, hp, hn, hpn, Heap.get_set]
  simp

/-- Evaluation of `remove` when the two neighbors are distinct nodes. -/
theorem remove_eq_of_ne {T : Type} (h : Heap T) (r p n : Nat) (rn pn nn : Node T)
    (hr : h.get r = some rn) (hp : rn.prev = some p) (hn : rn.next = some n)
    (hpn : h.get p = some pn) (hnn : h.get n = some nn) (hnp : n ≠ p) :
    remove h (some r) =
      some ((h.set p ⟨pn.prev, rn.next, pn.val⟩).set n ⟨rn.prev, nn.next, nn.val⟩, some p) := by
  simp only [remove, hr, hp, hn, hpn, Heap.get_set, if_neg hnp, hnn]

/-- C6: `Remove` on a non-nil ref returns the node that was `ref.prev`
and connects `ref.prev` and `ref.next` directly: afterwards the old
predecessor's `next` is the old successor and the old successor's
`prev` is the old predecessor (including the aliased cases); `Remove`
on nil returns nil and leaves the heap alone. -/
theorem c6_remove_connects {T : Type} (h : Heap T) (r p n : Nat) (rn pn nn : Node T)
    (hr : h.get r = some rn) (hp : rn.prev = some p) (hn : rn.next = some n)
    (hpn : h.get p = some pn) (hnn : h.get n = some nn) :
    remove h none = some (h, none) ∧
    ∃ h', remove h (some r) = some (h', some p) ∧
      ∃ pn' nn', h'.get p = some pn' ∧ pn'.next = some n ∧
                 h'.get n = some nn' ∧ nn'.prev = some p := by
  refine ⟨rfl, ?_⟩
  by_cases hnp : n = p
  · subst hnp
    refine ⟨_, remove_eq_of_eq h r n rn pn hr hp hn hpn, ?_⟩
    exact ⟨⟨rn.prev, rn.next, pn.val⟩, ⟨rn.prev, rn.next, pn.val⟩,
      by simp [Heap.get_set], hn, by simp [Heap.get_set], hp⟩
  · have hpn' : p ≠ n := fun hEq => hnp hEq.symm
    refine ⟨_, remove_eq_of_ne h r p n rn pn nn hr hp hn hpn hnn hnp, ?_⟩
    exact ⟨⟨pn.prev, rn.next, pn.val⟩, ⟨rn.prev, nn.next, nn.val⟩,
      by simp [Heap.get_set, hpn'], hn, by simp [Heap.get_set], hp⟩

/-- C6 witness: removing node `0` from the two-node list `0 ⇄ 1`. -/
theorem c6_witness :
    remove pairHeap none = some (pairHeap, none) ∧
    ∃ h', remove pairHeap (some 0) = some (h', some 1) ∧
      ∃ pn' nn', h'.get 1 = some pn' ∧ pn'.next = some 1 ∧
                 h'.get 1 = some nn' ∧ nn'.prev = some 1 :=
  c6_remove_connects pairHeap 0 1 1 ⟨some 1, some 1, "x"⟩ ⟨some 0, some 0, "y"⟩
    ⟨some 0, some 0, "y"⟩ rfl rfl rfl rfl rfl

/-- C4: on every well-formed circular list, listed as `c :: rest` from
any chosen starting node `c`, the forward iteration `All` yields
exactly the `rest.length + 1` nodes of the cycle, each exactly once,
starting with `c`; `Backward` yields the mirror traversal over `prev`;
a consumer stopping after `k` elements sees exactly the first `k`
nodes of the forward order; and the producer only reads nodes it has
already yielded. -/
theorem c4_traversal_ring {T : Type} (h : Heap T) (c : Nat) (rest : List Nat)
    (fuel k : Nat) (hring : isRing h (c :: rest)) (hfuel : rest.length + 1 ≤ fuel) :
    allNodes h (some c) fuel = (c :: rest).map some ∧
    (allNodes h (some c) fuel).length = rest.length + 1 ∧
    (allNodes h (some c) fuel).Nodup ∧
    backwardNodes h (some c) fuel = (c :: rest.reverse).map some ∧
    (allNodesStop h (some c) fuel k).1 = (allNodes h (some c) fuel).take k ∧
    (∀ x ∈ (allNodesStop h (some c) fuel k).2, x ∈ (allNodesStop h (some c) fuel k).1) := by
  obtain ⟨-, hnodup, hnext, hprev⟩ := hring
  have hall : allNodes h (some c) fuel = (c :: rest).map some :=
    seqNodes_ring h nextPtr c rest fuel hnext hnodup hfuel
  have hnodup' : (c :: rest.reverse).Nodup := by
    obtain ⟨hcm, hrm⟩ := List.nodup_cons.mp hnodup
    exact List.nodup_cons.mpr ⟨fun hmem => hcm (List.mem_reverse.mp hmem), (List.nodup_reverse).mpr hrm⟩
  have hback : backwardNodes h (some c) fuel = (c :: rest.reverse).map some :=
    seqNodes_ring h prevPtr c rest.reverse fuel hprev hnodup'
      (by rw [List.length_reverse]; exact hfuel)
  refine ⟨hall, ?_, ?_, hback, ?_, ?_⟩
  · rw [hall]; simp
  · rw [hall]; exact hnodup.map (Option.some_injective Nat)
  · exact seqNodesStop_fst h nextPtr (some c) fuel k (some c)
  · intro x hx
    have hx' : x ∈ (seqNodesStop h nextPtr (some c) fuel k (some c)).2 := hx
    rw [seqNodesStop_snd h nextPtr (some c) fuel k (some c)] at hx'
    exact hx'

/-- C4 witness: the three-node ring `0 → 1 → 2 → 0`, fuel `5`, budget
`2`. -/
theorem c4_witness :
    allNodes ringHeap (some 0) 5 = [some 0, some 1, some 2] ∧
    backwardNodes ringHeap (some 0) 5 = [some 0, some 2, some 1] ∧
    (allNodesStop ringHeap (some 0) 5 2).1 = [some 0, some 1] := by
  obtain ⟨h1, -, -, h4, h5, -⟩ :=
    c4_traversal_ring ringHeap 0 [1, 2] 5 2 (by decide) (by decide)
  refine ⟨h1, h4, ?_⟩
  rw [h5, h1]
  rfl

/-- C10: with a non-nil anchor `ref`, `InsertBefore` rewrites only
`ref`'s `prev` field (to the freshly allocated node), keeping its
`next` and `Val`; `InsertAfter` rewrites only `ref`'s `next`; and
`Remove` leaves every field of `ref`'s own node exactly as it was. -/
theorem c10_insert_remove_frame {T : Type} (h : Heap T) (r : Nat) (rn : Node T) (v : T)
    (hr : h.get r = some rn) (hfr : r ≠ h.fresh)
    (p n : Nat) (pn nn : Node T) (hp : rn.prev = some p) (hn : rn.next = some n)
    (hpn : h.get p = some pn) (hnn : h.get n = some nn) :
    (∃ h1, insertBefore h (some r) v = some (h1, some r) ∧
       h1.get r = some ⟨some h.fresh, rn.next, rn.val⟩) ∧
    (∃ h2, insertAfter h (some r) v = some (h2, some r) ∧
       h2.get r = some ⟨rn.prev, some h.fresh, rn.val⟩) ∧
    (∃ h3 l3, remove h (some r) = some (h3, l3) ∧ h3.get r = some rn) := by
  refine ⟨?_, ?_, ?_⟩
  · have hcomp : insertBefore h (some r) v =
        some (((h.alloc ⟨none, some r, v⟩).set h.fresh
                ⟨rn.prev, some r, v⟩).set r ⟨some h.fresh, rn.next, rn.val⟩, some r) := by
      simp only [insertBefore, Heap.get_alloc, if_neg hfr, hr]
    exact ⟨_, hcomp, by simp [Heap.get_set]⟩
  · have hcomp : insertAfter h (some r) v =
        some (((h.alloc ⟨some r, none, v⟩).set h.fresh
                ⟨some r, rn.next, v⟩).set r ⟨rn.prev, some h.fresh, rn.val⟩, some r) := by
      simp only [insertAfter, Heap.get_alloc, if_neg hfr, hr]
    exact ⟨_, hcomp, by simp [Heap.get_set]⟩
  · by_cases hnp : n = p
    · subst hnp
      have hcomp := remove_eq_of_eq h r n rn pn hr hp hn hpn
      refine ⟨_, some n, hcomp, ?_⟩
      by_cases hrn : r = n
      · subst hrn
        have hpr : pn = rn := by rw [hr] at hpn; exact ((Option.some.injEq _ _).mp hpn).symm
        simp [Heap.get_set, hpr, Node.eta]
      · simp [Heap.get_set, hrn, hr]
    · have hcomp := remove_eq_of_ne h r p n rn pn nn hr hp hn hpn hnn hnp
      refine ⟨_, some p, hcomp, ?_⟩
      by_cases hrn : r = n
      · subst hrn
        have hnr : nn = rn := by rw [hr] at hnn; exact ((Option.some.injEq _ _).mp hnn).symm
        simp [Heap.get_set, hnr, Node.eta]
      · by_cases hrp : r = p
        · subst hrp
          have hpr : pn = rn := by rw [hr] at hpn; exact ((Option.some.injEq _ _).mp hpn).symm
          simp [Heap.get_set, hrn, hpr, Node.eta]
        · simp [Heap.get_set, hrn, hrp, hr]

/-- C10 witness: inserting `"B"` around and removing node `0` of the
two-node list `0 ⇄ 1`. -/
theorem c10_witness :
    (∃ h1, insertBefore pairHeap (some 0) "B" = some (h1, some 0) ∧
       h1.get 0 = some ⟨some 2, some 1, "x"⟩) ∧
    (∃ h2, insertAfter pairHeap (some 0) "B" = some (h2, some 0) ∧
       h2.get 0 = some ⟨some 1, some 2, "x"⟩) ∧
    (∃ h3 l3, remove pairHeap (some 0) = some (h3, l3) ∧
       h3.get 0 = some ⟨some 1, some 1, "x"⟩) :=
  c10_insert_remove_frame pairHeap 0 ⟨some 1, some 1, "x"⟩ "B" rfl (by decide)
    1 1 ⟨some 0, some 0, "y"⟩ ⟨some 0, some 0, "y"⟩ rfl rfl rfl rfl

/-- C1: the claimed invariant `prev(next(n)) == n` and
`next(prev(n)) == n` fails in an API-reachable state.  `NewList("A","B")`
(that is, `InsertBefore("A")` on the empty list followed by
`InsertBefore("B")` on the result) returns the node of `"A"` (address
`0`), and both that node and the node of `"B"` (address `1`) violate
the invariant: `InsertBefore` never updates the old predecessor's
`next` field, so `next` of the `"A"` node still points at itself. -/
theorem c1_invariant_fails_on_reachable_state :
    (newList ["A", "B"]).map
      (fun s => (s.2, okNode s.1 (some 0), okNode s.1 (some 1), nextPtr s.1 (some 0))) =
      some (some 0, false, false, some 0) := by
  decide

/-- C2: the `NewList("A","B","C")` scenario does not produce the claimed
traversals.  `Values()` yields `["A"]` (not `["A","B","C"]`) and
`ValuesBackward()` yields `["A","C","B"]` (not `["C","B","A"]`),
because bulk insertion leaves the forward links of the earlier nodes
untouched. -/
theorem c2_newList_values_wrong :
    (newList ["A", "B", "C"]).map
      (fun s => (valuesF s.1 s.2 10, valuesBackwardF s.1 s.2 10)) =
      some (["A"], ["A", "C", "B"]) := by
  decide

/-- C3: after `m.Set("a",1); m.Set("b",2); m.Set("a",3)` the code gives
`Lookup("a") = (3, true)` as claimed, but `Keys()` yields `["a"]`, not
the claimed `["a","b"]`: the node for `"b"` is indexed yet is not
reachable by the forward iteration from the head. -/
theorem c3_keys_scenario_wrong :
    mapABA.map (fun m => (m.Keys 10, m.Lookup "a")) = some (["a"], some 3) := by
  decide

/-- C5: `InsertBefore` on a non-empty list does not splice the new node
in.  Inserting `"B"` before the one-node list `["A"]` (node address
`0`) returns the original ref and sets `ref.prev` to the new node
(address `1`) with `newNode.next = ref`, but the old predecessor's
`next` (here the `"A"` node's own `next`) still points at the `"A"`
node, so the new node never appears in forward traversal order. -/
theorem c5_insertBefore_incomplete_splice :
    ((newList ["A"]).bind fun s => insertBefore s.1 s.2 "B").map
      (fun s => (s.2, prevPtr s.1 s.2, nextPtr s.1 s.2,
                 (allNodes s.1 s.2 10).contains (some 1))) =
      some (some 0, some 1, some 0, false) := by
  decide

/-- C7: deleting the only key does not leave the head absent.  After
`m.Set("a",1); m.Delete("a")` the index is empty, yet `m.head` still
points at the removed node (address `0`) because `prev.Next()` of a
removed self-linked node is the node itself, and `Keys()` still yields
`["a"]`. -/
theorem c7_delete_last_head_not_absent :
    mapADel.map (fun m => (m.index, m.head, m.Keys 10)) =
      some ([], some 0, ["a"]) := by
  decide

/-- C9: the index/list consistency invariant fails in a reachable map
state.  After `m.Set("a",1); m.Set("b",2)` the key `"b"` is in the
index (mapped to node address `1`), but that node is not among the
nodes of the list iteration from the head, and `Keys()` is `["a"]`. -/
theorem c9_index_list_inconsistent :
    mapAB.map
      (fun m => (idxGet m.index "b",
                 (allNodes m.heap m.head 10).contains (some 1), m.Keys 10)) =
      some (some 1, false, ["a"]) := by
  decide

/-- C8: on any sane map state, `Set(k, v)` succeeds and a following
`Lookup(k)` reports `(v, true)`; `Delete(k)` succeeds and a following
`Lookup(k)` reports not-found; and looking up a key that is not in the
index is not an error — `Lookup` just answers not-found. -/
theorem c8_set_lookup_delete {K V : Type} [DecidableEq K]
    (m : OrderedMap K V) (k : K) (v : V) (hwf : m.wf) :
    (∃ m1, m.Set k v = some m1 ∧ m1.Lookup k = some v) ∧
    (∃ m2, m.Delete k = some m2 ∧ m2.Lookup k = none) ∧
    (idxGet m.index k = none → m.Lookup k = none) := by
  obtain ⟨hhw, hidx, hhead⟩ := hwf
  refine ⟨?_, ?_, fun h0 => by simp [OrderedMap.Lookup, h0]⟩
  · cases hg : idxGet m.index k with
    | some a =>
      obtain ⟨nd, hnd, -, -⟩ := hidx k a hg
      refine ⟨{ m with heap := m.heap.set a ⟨nd.prev, nd.next, ⟨nd.val.key, v⟩⟩ }, ?_, ?_⟩
      · simp only [OrderedMap.Set, hg, hnd]
      · simp [OrderedMap.Lookup, hg, Heap.get_set]
    | none =>
      rcases hhead with hh0 | ⟨hd, hn, hh, hhd⟩
      · have hcomp : m.Set k v =
            some ⟨idxSet m.index k m.heap.fresh, some m.heap.fresh,
                  (m.heap.alloc ⟨none, none, ⟨k, v⟩⟩).set m.heap.fresh
                    ⟨some m.heap.fresh, some m.heap.fresh, ⟨k, v⟩⟩⟩ := by
          simp only [OrderedMap.Set, hg, hh0, insertBefore, prevPtr, Heap.get, Heap.set]
          simp
        refine ⟨_, hcomp, ?_⟩
        simp [OrderedMap.Lookup, idxGet_idxSet_self, Heap.get_set]
      · have hdf : hd ≠ m.heap.fresh := by
          intro hEq
          have := hhw hd (Nat.le_of_eq hEq.symm)
          rw [this] at hhd
          exact Option.noConfusion hhd
        have hfd : m.heap.fresh ≠ hd := fun hEq => hdf hEq.symm
        have hhd' : m.heap.mem hd = some hn := hhd
        have hcomp : m.Set k v =
            some ⟨idxSet m.index k m.heap.fresh, some hd,
                  ((m.heap.alloc ⟨none, some hd, ⟨k, v⟩⟩).set m.heap.fresh
                     ⟨hn.prev, some hd, ⟨k, v⟩⟩).set hd ⟨some m.heap.fresh, hn.next, hn.val⟩⟩ := by
          simp only [OrderedMap.Set, hg, hh, insertBefore, Heap.get_alloc, Heap.mem_alloc,
            if_neg hdf, hhd, hhd', prevPtr, Heap.get_set, Heap.mem_set, Heap.get]
          simp [Heap.set, Heap.alloc, hfd]
        refine ⟨_, hcomp, ?_⟩
        simp [OrderedMap.Lookup, idxGet_idxSet_self, Heap.get_set, hfd]
  · cases hg : idxGet m.index k with
    | none =>
      exact ⟨m, by simp [OrderedMap.Delete, hg], by simp [OrderedMap.Lookup, hg]⟩
    | some a =>
      obtain ⟨nd, hnd, ⟨p, pn, hp, hpn⟩, ⟨q, qn, hq, hqn⟩⟩ := hidx k a hg
      by_cases hqp : q = p
      · subst hqp
        have hrm := remove_eq_of_eq m.heap a q nd pn hnd hp hq hpn
        have hdel : m.Delete k =
            some ⟨idxDel m.index k,
                  if some a = m.head then
                    nextPtr ((m.heap.set q ⟨pn.prev, nd.next, pn.val⟩).set q
                      ⟨nd.prev, nd.next, pn.val⟩) (some q)
                  else m.head,
                  (m.heap.set q ⟨pn.prev, nd.next, pn.val⟩).set q
                    ⟨nd.prev, nd.next, pn.val⟩⟩ := by
          simp only [OrderedMap.Delete, hg, hrm]
        exact ⟨_, hdel, by simp [OrderedMap.Lookup, idxGet_idxDel_self]⟩
      · have hrm := remove_eq_of_ne m.heap a p q nd pn qn hnd hp hq hpn hqn hqp
        have hdel : m.Delete k =
            some ⟨idxDel m.index k,
                  if some a = m.head then
                    nextPtr ((m.heap.set p ⟨pn.prev, nd.next, pn.val⟩).set q
                      ⟨nd.prev, qn.next, qn.val⟩) (some p)
                  else m.head,
                  (m.heap.set p ⟨pn.prev, nd.next, pn.val⟩).set q
                    ⟨nd.prev, qn.next, qn.val⟩⟩ := by
          simp only [OrderedMap.Delete, hg, hrm]
        exact ⟨_, hdel, by simp [OrderedMap.Lookup, idxGet_idxDel_self]⟩

/-- C8 witness: the zero-value map with key `"a"` and value `1`. -/
theorem c8_witness :
    (∃ m1, OrderedMap.empty.Set "a" 1 = some m1 ∧ m1.Lookup "a" = some 1) ∧
    (∃ m2, OrderedMap.empty.Delete "a" = some m2 ∧ m2.Lookup "a" = (none : Option Nat)) ∧
    (idxGet (OrderedMap.empty : OrderedMap String Nat).index "a" = none →
      OrderedMap.empty.Lookup "a" = (none : Option Nat)) :=
  c8_set_lookup_delete OrderedMap.empty "a" 1
    ⟨fun b _ => rfl, fun k a hka => by simp [idxGet] at hka, Or.inl rfl⟩

end XContainer
